import Mathlib

/-!
Verification of the DatoCMS Lucide icon-picker field editor.

The development shallowly embeds the core logic of the plugin:

* the name-casing conversions between display form (`PascalCase`) and
  storage form (`kebab-case`), as performed by the `change-case` calls
  in `IconPicker.tsx`;
* the `ALL_ICONS` exclusion predicate over the export keys of the icon module;
* the filter engine `filteredIcons` (category filter, then search filter);
* the dotted-path resolver `getNestedValue` over a JSON-like value tree;
* the selection reconciler: the `hasUserInteracted` / `localValue` /
  `formValue` state machine, modelled as a step function over discrete
  events (host re-renders, user selections, setter settlement), together
  with an abstraction of the rendered view.
-/

namespace IconPlugin

/-! ## ASCII character classes

The widget manipulates ASCII identifiers; `Char.toLower`/`Char.toUpper`
are the embedding of the JavaScript `toLowerCase`/`toUpperCase` maps on that
alphabet. -/

/-- Lower-case letter or digit: the characters allowed after the initial
capital inside one word of a PascalCase identifier. -/
def isLD (c : Char) : Bool := c.isLower || c.isDigit

/-- Letter or digit (the word characters of the `change-case` splitter). -/
def isAlnum (c : Char) : Bool := c.isAlpha || c.isDigit

/-! ## Name-casing conversions

Modelled from the spec: the widget source imports `kebabCase` and
`pascalCase` from the external `change-case` package, whose code is not
part of this repository.  The spec pins the conversions down as the two
pure maps `toStorageForm` (PascalCase identifier to kebab-case string)
and `toDisplayForm` (kebab-case string to PascalCase identifier), with
`"AArrowDown" ↦ "a-arrow-down"` as the worked example.  Both directions
are implemented over the word splitter of the library: a word boundary falls
between a lower-case letter or digit and an upper-case letter, and
between two upper-case letters when a lower-case letter follows; any
non-alphanumeric character separates words. -/

/-- Word boundary of the splitter: `p` is the previously consumed
character, `c` the current one, `nxt` the one after `c`. -/
def breakBetween (p c : Char) (nxt : Option Char) : Bool :=
  ((p.isLower || p.isDigit) && c.isUpper) ||
  (p.isUpper && c.isUpper && (match nxt with
    | some d => d.isLower
    | none => false))

/-- Single pass of the splitter.  The first argument is `some acc` when
scanning inside a word (`acc` holds the word so far, reversed), `none`
between words. -/
def splitGo : Option (List Char) → List Char → List (List Char)
  | none, [] => []
  | some acc, [] => [acc.reverse]
  | none, c :: rest =>
    if isAlnum c then splitGo (some [c]) rest else splitGo none rest
  | some acc, c :: rest =>
    if isAlnum c = false then acc.reverse :: splitGo none rest
    else
      match acc with
      | [] => splitGo (some [c]) rest
      | p :: _ =>
        if breakBetween p c rest.head? then acc.reverse :: splitGo (some [c]) rest
        else splitGo (some (c :: acc)) rest

/-- Words of a string, in order. -/
def splitWords (l : List Char) : List (List Char) := splitGo none l

/-- Lower-case image of a word. -/
def lowerW (w : List Char) : List Char := w.map Char.toLower

/-- Join words with `'-'` between them. -/
def joinHyphen : List (List Char) → List Char
  | [] => []
  | [w] => w
  | w :: ws => w ++ '-' :: joinHyphen ws

/-- kebab-case conversion (`toStorageForm` without the namespace). -/
def kebabCase (s : String) : String :=
  String.mk (joinHyphen ((splitWords s.toList).map lowerW))

/-- Capitalisation of one word: the word is lower-cased and its first
character upper-cased. -/
def capitalizeW (w : List Char) : List Char :=
  match lowerW w with
  | [] => []
  | c :: r => c.toUpper :: r

/-- PascalCase conversion (`toDisplayForm`). -/
def pascalCase (s : String) : String :=
  String.mk (((splitWords s.toList).map capitalizeW).flatten)

/-! ## The catalog exclusion predicate

Translated from `ALL_ICONS` in `IconPicker.tsx`: an export key names a
catalog icon when its first character is fixed by upper-casing, it does
not end in `"Icon"`, it is neither `"createLucideIcon"` nor `"Icon"`,
and it does not start with `"Lucide"`. -/

/-- Does the second list start with the first one? -/
def leadsWith : List Char → List Char → Bool
  | [], _ => true
  | _ :: _, [] => false
  | a :: as, b :: bs => a == b && leadsWith as bs

def strBegins (s pre : String) : Bool := leadsWith pre.toList s.toList

def strFinishes (s suf : String) : Bool := leadsWith suf.toList.reverse s.toList.reverse

/-- The `ALL_ICONS` filter of the source. -/
def isCatalogKey (s : String) : Bool :=
  (match s.toList with
   | [] => false
   | c :: _ => c == c.toUpper) &&
  !(strFinishes s "Icon") &&
  s != "createLucideIcon" &&
  s != "Icon" &&
  !(strBegins s "Lucide")

/-! ## Pascal normal form -/

/-- Last element of a list, with default `p`. -/
def lastD (p : Char) : List Char → Char
  | [] => p
  | c :: cs => lastD c cs

/-- The splitter, scanning inside a word whose last consumed character is
`p`, ends the word when it reaches `rest`. -/
def stopsHere (p : Char) (rest : List Char) : Bool :=
  match rest with
  | [] => true
  | c :: rs => !isAlnum c || breakBetween p c rs.head?

/-- One word of a Pascal-normal identifier: an upper-case letter followed
by lower-case letters and digits. -/
def normalWordB : List Char → Bool
  | [] => false
  | u :: ls => u.isUpper && ls.all isLD

/-- A word whose second character is a lower-case letter; only such a
word may follow a single-letter word, otherwise the splitter cannot
recover the boundary. -/
def okAfter : List Char → Bool
  | _ :: c :: _ => c.isLower
  | _ => false

def chainOk : List (List Char) → Bool
  | w1 :: w2 :: ws => (w1.length != 1 || okAfter w2) && chainOk (w2 :: ws)
  | _ => true

/-- Pascal normal form of an identifier, given as its list of words. -/
def pascalNormal (ws : List (List Char)) : Bool :=
  !ws.isEmpty && ws.all normalWordB && chainOk ws

/-! ## The filter engine

Translated from the `filteredIcons` memo in `IconPicker.tsx`. -/

/-- Case-insensitive lowering of a whole string (ASCII). -/
def lowerStr (s : String) : String := String.mk (s.toList.map Char.toLower)

/-- Does `needle` occur in `hay` as a contiguous run?  Embedding of
the JavaScript `String.prototype.includes`. -/
def occursIn (hay needle : List Char) : Bool :=
  match hay with
  | [] => leadsWith needle []
  | c :: t => leadsWith needle (c :: t) || occursIn t needle

def strIncludes (hay needle : String) : Bool := occursIn hay.toList needle.toList

/-- The category data fetched from the category endpoint: kebab-case icon
name to list of category tags. -/
def CategoryData : Type := List (String × List String)

/-- One entry of the category filter: the kebab-case name of the icon is looked
up in the category data, a missing entry counts as the empty tag list, and
the entry passes when the list contains the tag. -/
def categoryPass (categoryData : List (String × List String)) (category name : String) : Bool :=
  (((categoryData.lookup (kebabCase name)).getD []).contains category)

/-- One entry of the search filter: the lower-cased display name contains
the lower-cased search term. -/
def searchPass (search name : String) : Bool :=
  strIncludes (lowerStr name) (lowerStr search)

/-- The `filteredIcons` memo of the source: the catalog is first narrowed
by category (only when a category is chosen and the category data has
loaded), then by the search term (only when non-empty). -/
def filteredIcons (allIcons : List String) (search category : String)
    (categoryData : List (String × List String)) : List String :=
  let icons :=
    if category != "" && !categoryData.isEmpty then
      allIcons.filter (fun name => categoryPass categoryData category name)
    else allIcons
  if search != "" then
    icons.filter (fun name => searchPass search name)
  else icons

/-- The Filter Engine contract as the spec words it: the category filter
is applied first when both the tag and the index are non-empty, then the
search filter keeps the entries whose display-form name contains the term
case-insensitively. -/
def filterContract (catalog : List String) (searchTerm categoryTag : String)
    (categoryIndex : List (String × List String)) : List String :=
  let afterCategory :=
    if categoryTag ≠ "" ∧ categoryIndex ≠ [] then
      catalog.filter (fun name => categoryPass categoryIndex categoryTag name)
    else catalog
  afterCategory.filter (fun name => searchPass searchTerm name)

/-! ## Dotted-path resolution over the value tree of the host

Translated from `getNestedValue` in `IconPicker.tsx`: the path is split
on `'.'` and walked segment by segment with JavaScript member access;
`none` plays the role of `undefined`. -/

/-- JSON-like value trees, the shape of the `formValues` tree of the host. -/
inductive JValue where
  | null
  | bool (b : Bool)
  | num (n : Int)
  | str (s : String)
  | arr (xs : List JValue)
  | obj (fields : List (String × JValue))

/-- Split a character list on a separator; mirrors the JavaScript
`String.prototype.split` with a single-character separator (an empty
input yields one empty segment). -/
def splitOnChar (sep : Char) : List Char → List (List Char)
  | [] => [[]]
  | c :: t =>
    let r := splitOnChar sep t
    if c == sep then [] :: r
    else
      match r with
      | [] => [[c]]
      | w :: ws => (c :: w) :: ws

/-- Numeric value of a digit list. -/
def digitsToNat : List Char → Nat :=
  List.foldl (fun acc c => acc * 10 + (c.toNat - 48)) 0

/-- A canonical array index: all digits, non-empty, no leading zero
except for `"0"` itself.  JavaScript array member access under any other
key yields `undefined`. -/
def parseIndex (l : List Char) : Option Nat :=
  if l.all Char.isDigit && !l.isEmpty && (l == ['0'] || l.head? != some '0') then
    some (digitsToNat l)
  else none

/-- One step of JavaScript member access, with `null`/`undefined`
short-circuiting as in the reducer of the source. -/
def jsAccess (cur : Option JValue) (key : String) : Option JValue :=
  match cur with
  | none => none
  | some JValue.null => none
  | some (JValue.obj fields) => fields.lookup key
  | some (JValue.arr xs) =>
    match parseIndex key.toList with
    | some i => xs[i]?
    | none => none
  | some _ => none

/-- The path segments of a dotted path. -/
def pathSegs (path : String) : List String :=
  (splitOnChar '.' path.toList).map String.mk

/-- The `getNestedValue` of the source: reduce the segments over member
access, starting from the whole tree. -/
def getNestedValue (obj : JValue) (path : String) : Option JValue :=
  (pathSegs path).foldl jsAccess (some obj)

/-- Recursive segment walker; the reading the spec gives of path resolution. -/
def specWalk : List String → Option JValue → Option JValue
  | [], cur => cur
  | k :: ks, cur => specWalk ks (jsAccess cur k)

/-- The nested `formValues` tree of the nested-field-path test:
`{ blocks: [{ features: [{ licon: "lucide:Target" }] }] }`. -/
def exampleTree : JValue :=
  JValue.obj [("blocks", JValue.arr [JValue.obj
    [("features", JValue.arr [JValue.obj [("licon", JValue.str "lucide:Target")]])]])]

/-! ## The selection reconciler

The state carried by one mounted `IconPicker` instance, and the discrete
events it reacts to.  `hostValue` is the last `formValue` resolved from
the host context, `localValue` the `useState` value, `hasInteracted` the
`hasUserInteracted` ref, `isExpanded` the picker visibility,
`setterCalls` the accumulated `ctx.setFieldValue` requests, and
`diagnostics` the console log. -/

structure PickerState where
  fieldPath : String
  hostValue : Option String
  localValue : Option String
  hasInteracted : Bool
  isExpanded : Bool
  search : String
  category : String
  categoryData : List (String × List String)
  setterCalls : List (String × Option String)
  diagnostics : List String

/-- The discrete events of one session: a host context re-render with a
(possibly stale) form value, the two user actions, the visibility and
filter-input setters, arrival of the category fetch, and settlement
(resolution or rejection) of a pending `setFieldValue` promise. -/
inductive PickerEvent where
  | hostObserved (v : Option String)
  | selectIcon (pascalName : String)
  | clearIcon
  | setExpanded (b : Bool)
  | setSearch (q : String)
  | setCategory (c : String)
  | categoriesLoaded (d : List (String × List String))
  | setterSettled (ok : Bool)

/-- Storage form of a selected identifier, as computed in `selectIcon`. -/
def storageValue (pascalName : String) : String := "lucide:" ++ kebabCase pascalName

/-- One transition of the reconciler, mirroring the source handlers:

* `hostObserved` re-renders with a new `formValue`; the sync effect
  copies it into `localValue` only while the user has not interacted;
* `selectIcon` marks interaction, stores the new value optimistically,
  collapses the picker and issues exactly one setter request;
* `clearIcon` marks interaction, clears the local value and issues
  exactly one setter request with the empty value;
* `setterSettled` is the `try`/`catch` around the awaited setter: both
  branches only log. -/
def step (s : PickerState) : PickerEvent → PickerState
  | .hostObserved v =>
    { s with hostValue := v,
             localValue := if s.hasInteracted then s.localValue else v }
  | .selectIcon n =>
    { s with hasInteracted := true,
             localValue := some (storageValue n),
             isExpanded := false,
             setterCalls := s.setterCalls ++ [(s.fieldPath, some (storageValue n))],
             diagnostics := s.diagnostics ++ ["selectIcon called: " ++ storageValue n] }
  | .clearIcon =>
    { s with hasInteracted := true,
             localValue := none,
             setterCalls := s.setterCalls ++ [(s.fieldPath, none)] }
  | .setExpanded b => { s with isExpanded := b }
  | .setSearch q => { s with search := q }
  | .setCategory c => { s with category := c }
  | .categoriesLoaded d => { s with categoryData := d }
  | .setterSettled ok =>
    { s with diagnostics := s.diagnostics ++
        [if ok then "setFieldValue completed successfully" else "setFieldValue failed"] }

/-- The state created by a fresh mount: every session-local piece starts
from its `useState`/`useRef` initialiser, `localValue` is seeded from the
current host value, and nothing has been requested yet. -/
def mount (fieldPath : String) (hv : Option String) : PickerState :=
  { fieldPath := fieldPath
    hostValue := hv
    localValue := hv
    hasInteracted := false
    isExpanded := false
    search := ""
    category := ""
    categoryData := []
    setterCalls := []
    diagnostics := [] }

/-- The displayed value: `localValue` once the user has interacted,
otherwise the host value (`selectedValue` in the source). -/
def selectedValue (s : PickerState) : Option String :=
  if s.hasInteracted then s.localValue else s.hostValue

/-- Run a sequence of events. -/
def runEvents (s : PickerState) (es : List PickerEvent) : PickerState :=
  es.foldl step s

/-- User actions are the two events that write the field. -/
def isUserAction : PickerEvent → Bool
  | .selectIcon _ => true
  | .clearIcon => true
  | _ => false

/-- The local value written by an event, when it is a user action. -/
def eventWrite : PickerEvent → Option (Option String)
  | .selectIcon n => some (some (storageValue n))
  | .clearIcon => some none
  | _ => none

/-- The value written by the last user action of a trace, if any. -/
def lastWrite : List PickerEvent → Option (Option String)
  | [] => none
  | e :: es =>
    match lastWrite es with
    | some v => some v
    | none => eventWrite e

/-! ## The rendered view -/

/-- Remove the first occurrence of `pat` from `hay`; embedding of
the JavaScript `String.prototype.replace` with an empty replacement. -/
def removeFirst : List Char → List Char → List Char
  | [], pat => if leadsWith pat [] then [] else []
  | c :: t, pat =>
    if leadsWith pat (c :: t) then (c :: t).drop pat.length
    else c :: removeFirst t pat

/-- The `currentIconName` computation of the source: strip the first
occurrence of `"lucide:"` from the displayed value; an empty result (or
no value at all) is no name. -/
def currentIconName (sel : Option String) : Option String :=
  match sel with
  | none => none
  | some v =>
    let r := String.mk (removeFirst v.toList "lucide:".toList)
    if r = "" then none else some r

/-- Abstraction of the JSX output: which affordances the markup shows.
`icons` stands for the keys of the icon rendering map (`iconsMap`). -/
structure RenderView where
  showsCurrentIcon : Bool
  displayedName : Option String
  displayedValue : Option String
  showsChange : Bool
  showsRemove : Bool
  showsAdd : Bool
  showsNoSelection : Bool
  showsSearch : Bool

/-- The render function of the source, abstracted to affordances: the
current-selection block shows name, value, Change and Remove when the
pascal-cased parsed name hits the icon map, otherwise the no-selection
text and the Add button; the picker (with its search input) is shown
exactly when `isExpanded` is set. -/
def renderView (icons : List String) (s : PickerState) : RenderView :=
  let sel := selectedValue s
  let nameOpt := currentIconName sel
  let hit :=
    match nameOpt with
    | some n => icons.contains (pascalCase n)
    | none => false
  { showsCurrentIcon := hit
    displayedName := if hit then nameOpt else none
    displayedValue := if hit then sel else none
    showsChange := hit
    showsRemove := hit
    showsAdd := !hit
    showsNoSelection := !hit
    showsSearch := s.isExpanded }

/-! # Supporting lemmas -/

theorem uleIff {a b : UInt32} : (a ≤ b) ↔ a.toNat ≤ b.toNat := Iff.rfl

theorem isUpperIff {c : Char} : c.isUpper = true ↔ 65 ≤ c.toNat ∧ c.toNat ≤ 90 := by
  simp only [Char.isUpper, Bool.and_eq_true, decide_eq_true_eq, ge_iff_le, uleIff]
  constructor
  · rintro ⟨h1, h2⟩
    exact ⟨h1, h2⟩
  · rintro ⟨h1, h2⟩
    exact ⟨h1, h2⟩

theorem isLowerIff {c : Char} : c.isLower = true ↔ 97 ≤ c.toNat ∧ c.toNat ≤ 122 := by
  simp only [Char.isLower, Bool.and_eq_true, decide_eq_true_eq, ge_iff_le, uleIff]
  constructor
  · rintro ⟨h1, h2⟩
    exact ⟨h1, h2⟩
  · rintro ⟨h1, h2⟩
    exact ⟨h1, h2⟩

theorem isDigitIff {c : Char} : c.isDigit = true ↔ 48 ≤ c.toNat ∧ c.toNat ≤ 57 := by
  simp only [Char.isDigit, Bool.and_eq_true, decide_eq_true_eq, ge_iff_le, uleIff]
  constructor
  · rintro ⟨h1, h2⟩
    exact ⟨h1, h2⟩
  · rintro ⟨h1, h2⟩
    exact ⟨h1, h2⟩

theorem toNat_ofNat_valid {n : Nat} (h : n.isValidChar) : (Char.ofNat n).toNat = n := by
  rw [Char.ofNat, dif_pos h]
  rfl

theorem validChar_of_le (n : Nat) (h : n ≤ 200) : n.isValidChar := by
  left
  omega

/-- An upper-case ASCII letter maps to a lower-case one. -/
theorem isLower_toLower {c : Char} (h : c.isUpper = true) : (c.toLower).isLower = true := by
  obtain ⟨h1, h2⟩ := isUpperIff.mp h
  rw [Char.toLower, if_pos ⟨h1, h2⟩]
  rw [isLowerIff, toNat_ofNat_valid (validChar_of_le _ (by omega))]
  omega

/-- Lower-casing is the identity on lower-case letters and digits. -/
theorem toLower_eq_self_of_isLD {c : Char} (h : isLD c = true) : c.toLower = c := by
  rw [Char.toLower, if_neg]
  rcases Bool.or_eq_true _ _ |>.mp h with h' | h'
  · obtain ⟨h1, h2⟩ := isLowerIff.mp h'
    omega
  · obtain ⟨h1, h2⟩ := isDigitIff.mp h'
    omega

/-- Round trip on an upper-case ASCII letter: lowering then uppering restores it. -/
theorem toUpper_toLower {c : Char} (h : c.isUpper = true) : c.toLower.toUpper = c := by
  obtain ⟨h1, h2⟩ := isUpperIff.mp h
  rw [Char.toLower, if_pos ⟨h1, h2⟩]
  rw [Char.toUpper, toNat_ofNat_valid (validChar_of_le _ (by omega)), if_pos (by omega)]
  have : c.toNat + 32 - 32 = c.toNat := by omega
  rw [this, Char.ofNat_toNat]

theorem isUpper_eq_false_of_isLD {c : Char} (h : isLD c = true) : c.isUpper = false := by
  rcases Bool.or_eq_true _ _ |>.mp h with h' | h' <;>
  · rw [Bool.eq_false_iff]
    intro hu
    obtain ⟨h1, h2⟩ := isUpperIff.mp hu
    first
    | (obtain ⟨h3, h4⟩ := isLowerIff.mp h'; omega)
    | (obtain ⟨h3, h4⟩ := isDigitIff.mp h'; omega)

theorem isAlnum_of_isLD {c : Char} (h : isLD c = true) : isAlnum c = true := by
  rcases Bool.or_eq_true _ _ |>.mp h with h' | h'
  · simp [isAlnum, Char.isAlpha, h']
  · simp [isAlnum, h']

theorem isAlnum_of_isUpper {c : Char} (h : c.isUpper = true) : isAlnum c = true := by
  simp [isAlnum, Char.isAlpha, h]

theorem isLD_toLower_of_isUpper {c : Char} (h : c.isUpper = true) : isLD c.toLower = true := by
  simp [isLD, isLower_toLower h]

theorem isLD_lastD (ls : List Char) : ∀ p : Char, ls ≠ [] → ls.all isLD = true →
    isLD (lastD p ls) = true := by
  induction ls with
  | nil => intro p h _; exact absurd rfl h
  | cons c cs ih =>
    intro p _ hall
    obtain ⟨hc, hcs⟩ : isLD c = true ∧ cs.all isLD = true := by simpa using hall
    cases cs with
    | nil => simpa [lastD] using hc
    | cons d ds =>
      show isLD (lastD c (d :: ds)) = true
      exact ih c (by simp) hcs

/-- Scanning inside a word, the splitter consumes a run of lower-case
letters and digits whole, and ends the word at a stopping position. -/
theorem splitGo_word (ls : List Char) : ∀ (p : Char) (acc rest : List Char),
    ls.all isLD = true → stopsHere (lastD p ls) rest = true →
    splitGo (some (p :: acc)) (ls ++ rest) =
      ((p :: acc).reverse ++ ls) :: splitGo none rest := by
  induction ls with
  | nil =>
    intro p acc rest _ hstop
    cases rest with
    | nil => simp [splitGo]
    | cons c rs =>
      simp only [stopsHere, lastD, Bool.or_eq_true] at hstop
      rcases hstop with h | h
      · have hc : isAlnum c = false := by simpa using h
        simp [splitGo, hc]
      · by_cases hc : isAlnum c = true
        · simp [splitGo, hc, h]
        · have hc' : isAlnum c = false := by simpa using hc
          simp [splitGo, hc']
  | cons l ls ih =>
    intro p acc rest hall hstop
    obtain ⟨hl, hls⟩ : isLD l = true ∧ ls.all isLD = true := by simpa using hall
    have hlalnum : isAlnum l = true := isAlnum_of_isLD hl
    have hlup : l.isUpper = false := isUpper_eq_false_of_isLD hl
    have hbreak : ∀ nxt, breakBetween p l nxt = false := by
      intro nxt
      simp [breakBetween, hlup]
    show splitGo (some (p :: acc)) (l :: (ls ++ rest)) = _
    rw [show splitGo (some (p :: acc)) (l :: (ls ++ rest)) =
        splitGo (some (l :: p :: acc)) (ls ++ rest) by
      simp [splitGo, hlalnum, hbreak]]
    rw [ih l (p :: acc) rest hls (by simpa [lastD] using hstop)]
    simp

/-- Entering a word from between-words state. -/
theorem splitGo_enter (h1 : Char) (t rest : List Char)
    (hh : isAlnum h1 = true) (ht : t.all isLD = true)
    (hstop : stopsHere (lastD h1 t) rest = true) :
    splitGo none ((h1 :: t) ++ rest) = (h1 :: t) :: splitGo none rest := by
  show splitGo none (h1 :: (t ++ rest)) = _
  rw [show splitGo none (h1 :: (t ++ rest)) = splitGo (some [h1]) (t ++ rest) by
    simp [splitGo, hh]]
  rw [splitGo_word t h1 [] rest ht hstop]
  simp

/-- The splitter recovers the words of a Pascal-normal identifier. -/
theorem splitWords_flatten (ws : List (List Char)) :
    ws.all normalWordB = true → chainOk ws = true →
    splitWords ws.flatten = ws := by
  induction ws with
  | nil => intro _ _; rfl
  | cons w ws ih =>
    intro hall hchain
    obtain ⟨hw, hws⟩ : normalWordB w = true ∧ ws.all normalWordB = true := by
      simpa using hall
    match w, hw with
    | u :: ls, hw =>
      obtain ⟨hu, hls⟩ : u.isUpper = true ∧ ls.all isLD = true := by
        simpa [normalWordB] using hw
      have hchain' : chainOk ws = true := by
        cases ws with
        | nil => rfl
        | cons w2 ws2 =>
          have := hchain
          simp only [chainOk, Bool.and_eq_true] at this
          exact this.2
      have hstop : stopsHere (lastD u ls) ws.flatten = true := by
        cases ws with
        | nil => rfl
        | cons w2 ws2 =>
          obtain ⟨hw2, _⟩ : normalWordB w2 = true ∧ ws2.all normalWordB = true := by
            simpa using hws
          match w2, hw2, hchain with
          | u2 :: ls2, hw2, hchain =>
            obtain ⟨hu2, hls2⟩ : u2.isUpper = true ∧ ls2.all isLD = true := by
              simpa [normalWordB] using hw2
            show stopsHere (lastD u ls) (u2 :: (ls2 ++ ws2.flatten)) = true
            simp only [stopsHere, Bool.or_eq_true]
            right
            cases ls with
            | nil =>
              have hok : okAfter (u2 :: ls2) = true := by
                simp only [chainOk, Bool.and_eq_true, Bool.or_eq_true] at hchain
                rcases hchain.1 with h | h
                · simp at h
                · exact h
              match ls2, hok with
              | c2 :: ds2, hok =>
                have hc2 : c2.isLower = true := by simpa [okAfter] using hok
                simp [breakBetween, lastD, hu, hu2, hc2]
            | cons l0 ls0 =>
              have hld : isLD (lastD u (l0 :: ls0)) = true :=
                isLD_lastD _ u (by simp) hls
              simp only [breakBetween, Bool.or_eq_true, Bool.and_eq_true]
              left
              exact ⟨by simpa [isLD] using hld, hu2⟩
      show splitWords ((u :: ls) ++ ws.flatten) = _
      rw [show splitWords ((u :: ls) ++ ws.flatten) =
          splitGo none ((u :: ls) ++ ws.flatten) by rfl]
      rw [splitGo_enter u ls ws.flatten (isAlnum_of_isUpper hu) hls hstop]
      rw [show splitGo none ws.flatten = splitWords ws.flatten by rfl]
      rw [ih hws hchain']

/-- The splitter recovers hyphen-joined nonempty lower-case words. -/
theorem splitWords_joinHyphen (us : List (List Char)) :
    us.all (fun w => !w.isEmpty && w.all isLD) = true →
    splitWords (joinHyphen us) = us := by
  induction us with
  | nil => intro _; rfl
  | cons w us ih =>
    intro hall
    obtain ⟨hw, hus⟩ : (!w.isEmpty && w.all isLD) = true ∧
        us.all (fun w => !w.isEmpty && w.all isLD) = true := by simpa using hall
    obtain ⟨hwne, hwld⟩ := Bool.and_eq_true _ _ |>.mp hw
    match w, hwne with
    | c :: t, _ =>
      obtain ⟨hc, ht⟩ : isLD c = true ∧ t.all isLD = true := by simpa using hwld
      cases us with
      | nil =>
        have h0 := splitGo_enter c t [] (isAlnum_of_isLD hc) ht rfl
        rw [List.append_nil] at h0
        show splitWords (c :: t) = [c :: t]
        rw [show splitWords (c :: t) = splitGo none (c :: t) from rfl, h0]
        rfl
      | cons w2 us2 =>
        show splitWords ((c :: t) ++ '-' :: joinHyphen (w2 :: us2)) = _
        rw [show splitWords ((c :: t) ++ '-' :: joinHyphen (w2 :: us2)) =
            splitGo none ((c :: t) ++ '-' :: joinHyphen (w2 :: us2)) by rfl]
        rw [splitGo_enter c t ('-' :: joinHyphen (w2 :: us2)) (isAlnum_of_isLD hc) ht
          (by simp [stopsHere, isAlnum, Char.isAlpha, Char.isUpper, Char.isLower, Char.isDigit])]
        rw [show splitGo none ('-' :: joinHyphen (w2 :: us2)) =
            splitGo none (joinHyphen (w2 :: us2)) by
          simp [splitGo, isAlnum, Char.isAlpha, Char.isUpper, Char.isLower, Char.isDigit]]
        rw [show splitGo none (joinHyphen (w2 :: us2)) =
            splitWords (joinHyphen (w2 :: us2)) by rfl]
        rw [ih hus]

theorem map_toLower_of_LD (ls : List Char) (h : ls.all isLD = true) :
    ls.map Char.toLower = ls := by
  induction ls with
  | nil => rfl
  | cons c cs ih =>
    obtain ⟨hc, hcs⟩ : isLD c = true ∧ cs.all isLD = true := by simpa using h
    simp [toLower_eq_self_of_isLD hc, ih hcs]

theorem lowerW_normal (u : Char) (ls : List Char) (hls : ls.all isLD = true) :
    lowerW (u :: ls) = u.toLower :: ls := by
  simp [lowerW, map_toLower_of_LD ls hls]

theorem capitalizeW_lowerW (w : List Char) (hw : normalWordB w = true) :
    capitalizeW (lowerW w) = w := by
  match w, hw with
  | u :: ls, hw =>
    obtain ⟨hu, hls⟩ : u.isUpper = true ∧ ls.all isLD = true := by
      simpa [normalWordB] using hw
    have hlow : isLD u.toLower = true := isLD_toLower_of_isUpper hu
    have h2 : lowerW (u.toLower :: ls) = u.toLower :: ls := by
      simp [lowerW, toLower_eq_self_of_isLD hlow, map_toLower_of_LD ls hls]
    rw [lowerW_normal u ls hls]
    rw [show capitalizeW (u.toLower :: ls) = u.toLower.toUpper :: ls from by
      simp [capitalizeW, h2]]
    rw [toUpper_toLower hu]

theorem lowered_words_ok (ws : List (List Char)) (hall : ws.all normalWordB = true) :
    (ws.map lowerW).all (fun w => !w.isEmpty && w.all isLD) = true := by
  induction ws with
  | nil => rfl
  | cons w ws ih =>
    obtain ⟨hw, hws⟩ : normalWordB w = true ∧ ws.all normalWordB = true := by
      simpa using hall
    match w, hw with
    | u :: ls, hw =>
      obtain ⟨hu, hls⟩ : u.isUpper = true ∧ ls.all isLD = true := by
        simpa [normalWordB] using hw
      simp only [List.map_cons, List.all_cons, Bool.and_eq_true]
      refine ⟨⟨?_, ?_⟩, ih hws⟩
      · simp [lowerW]
      · rw [lowerW_normal u ls hls]
        simp only [List.all_cons, Bool.and_eq_true]
        exact ⟨isLD_toLower_of_isUpper hu, hls⟩

theorem map_capitalizeW_lowerW (ws : List (List Char)) (hall : ws.all normalWordB = true) :
    (ws.map lowerW).map capitalizeW = ws := by
  induction ws with
  | nil => rfl
  | cons w ws ih =>
    obtain ⟨hw, hws⟩ : normalWordB w = true ∧ ws.all normalWordB = true := by
      simpa using hall
    simp only [List.map_cons, capitalizeW_lowerW w hw, ih hws]

/-! ## State-machine lemmas -/

theorem runEvents_cons (s : PickerState) (e : PickerEvent) (es : List PickerEvent) :
    runEvents s (e :: es) = runEvents (step s e) es := rfl

/-- Events that are not user actions (no field write) preserve the
interaction flag, the local value while interacted, and the setter-call
list. -/
theorem step_nonwrite (s : PickerState) (e : PickerEvent) (h : eventWrite e = none) :
    (step s e).hasInteracted = s.hasInteracted ∧
    (s.hasInteracted = true → (step s e).localValue = s.localValue) ∧
    (step s e).setterCalls = s.setterCalls ∧
    (step s e).fieldPath = s.fieldPath := by
  cases e <;> simp_all [step, eventWrite]

/-- A user action writes exactly its value into `localValue` and sets the
interaction flag. -/
theorem step_write (s : PickerState) (e : PickerEvent) (v : Option String)
    (h : eventWrite e = some v) :
    (step s e).localValue = v ∧ (step s e).hasInteracted = true := by
  cases e <;> simp_all [step, eventWrite]

/-- A trace with no user action preserves the interaction flag, and the
local value while the flag is up. -/
theorem runEvents_nonwrite (es : List PickerEvent) : ∀ s : PickerState,
    lastWrite es = none →
    (runEvents s es).hasInteracted = s.hasInteracted ∧
    (s.hasInteracted = true → (runEvents s es).localValue = s.localValue) := by
  induction es with
  | nil => intro s _; exact ⟨rfl, fun _ => rfl⟩
  | cons e es ih =>
    intro s h
    have hsplit : lastWrite es = none ∧ eventWrite e = none := by
      cases hlw : lastWrite es with
      | some w => simp [lastWrite, hlw] at h
      | none =>
        refine ⟨rfl, ?_⟩
        simpa [lastWrite, hlw] using h
    obtain ⟨h1, h2, _, _⟩ := step_nonwrite s e hsplit.2
    obtain ⟨h3, h4⟩ := ih (step s e) hsplit.1
    rw [runEvents_cons]
    refine ⟨h3.trans h1, fun hi => ?_⟩
    rw [h4 (by rw [h1]; exact hi), h2 hi]

/-- After a trace whose last user action wrote `v`, the local value is
`v` and the interaction flag is up. -/
theorem runEvents_write (es : List PickerEvent) : ∀ (s : PickerState) (v : Option String),
    lastWrite es = some v →
    (runEvents s es).localValue = v ∧ (runEvents s es).hasInteracted = true := by
  induction es with
  | nil => intro s v h; simp [lastWrite] at h
  | cons e es ih =>
    intro s v h
    rw [runEvents_cons]
    cases hlw : lastWrite es with
    | some w =>
      have hv : w = v := by simpa [lastWrite, hlw] using h
      exact hv ▸ ih (step s e) w hlw
    | none =>
      have he : eventWrite e = some v := by simpa [lastWrite, hlw] using h
      obtain ⟨hl, hi⟩ := step_write s e v he
      obtain ⟨h3, h4⟩ := runEvents_nonwrite es (step s e) hlw
      exact ⟨(h4 hi).trans hl, h3.trans hi⟩

/-- Host re-renders alone never touch the interaction flag, the setter
calls, the expansion flag or the field path. -/
theorem hostRun_frame (vs : List (Option String)) : ∀ s : PickerState,
    (runEvents s (vs.map PickerEvent.hostObserved)).hasInteracted = s.hasInteracted ∧
    (runEvents s (vs.map PickerEvent.hostObserved)).setterCalls = s.setterCalls ∧
    (runEvents s (vs.map PickerEvent.hostObserved)).isExpanded = s.isExpanded ∧
    (runEvents s (vs.map PickerEvent.hostObserved)).fieldPath = s.fieldPath := by
  induction vs with
  | nil => intro s; exact ⟨rfl, rfl, rfl, rfl⟩
  | cons v vs ih =>
    intro s
    simpa [runEvents_cons, step] using ih (step s (.hostObserved v))

/-- Host re-renders never touch the local value once the user has
interacted. -/
theorem hostRun_localValue (vs : List (Option String)) : ∀ s : PickerState,
    s.hasInteracted = true →
    (runEvents s (vs.map PickerEvent.hostObserved)).localValue = s.localValue := by
  induction vs with
  | nil => intro s _; rfl
  | cons v vs ih =>
    intro s hi
    rw [List.map_cons, runEvents_cons]
    rw [ih (step s (.hostObserved v)) (by simpa [step] using hi)]
    simp [step, hi]

/-- Host re-renders record the host value: afterwards `hostValue` is
the last observed value (or unchanged for the empty sequence). -/
theorem hostRun_hostValue (vs : List (Option String)) : ∀ s : PickerState,
    (runEvents s (vs.map PickerEvent.hostObserved)).hostValue =
      vs.getLast?.getD s.hostValue := by
  induction vs with
  | nil => intro s; rfl
  | cons v vs ih =>
    intro s
    rw [List.map_cons, runEvents_cons]
    rw [ih (step s (.hostObserved v))]
    cases vs with
    | nil => simp [step]
    | cons w ws =>
      have hsome : ((w :: ws).getLast?).isSome := by
        rw [List.getLast?_isSome]
        simp
      obtain ⟨u, hu⟩ := Option.isSome_iff_exists.mp hsome
      simp [List.getLast?_cons_cons, hu]

/-- The empty needle occurs in every haystack. -/
theorem occursIn_nil (hay : List Char) : occursIn hay [] = true := by
  cases hay <;> rfl

/-- Reducing segments with `foldl` is the recursive walk. -/
theorem foldl_specWalk (segs : List String) : ∀ cur : Option JValue,
    segs.foldl jsAccess cur = specWalk segs cur := by
  induction segs with
  | nil => intro cur; rfl
  | cons k ks ih => intro cur; exact ih (jsAccess cur k)

/-- `undefined` absorbs the rest of the walk. -/
theorem specWalk_none (segs : List String) : specWalk segs none = none := by
  induction segs with
  | nil => rfl
  | cons k ks ih => simpa [specWalk, jsAccess] using ih

/-! # The claims -/

/-- Claim C1: in any reachable state with `hasInteracted` true, any
further sequence of host-value observations leaves the displayed value
equal to the `localValue` written by the most recent `selectIcon` or
`clearIcon`; the observations update `hostValue` but change neither
`localValue` nor the displayed value. -/
theorem host_echo_never_overrides_local (fp : String) (hv : Option String)
    (es : List PickerEvent) (vs : List (Option String))
    (h : (runEvents (mount fp hv) es).hasInteracted = true) :
    selectedValue (runEvents (runEvents (mount fp hv) es) (vs.map PickerEvent.hostObserved)) =
      (runEvents (mount fp hv) es).localValue ∧
    (runEvents (runEvents (mount fp hv) es) (vs.map PickerEvent.hostObserved)).localValue =
      (runEvents (mount fp hv) es).localValue ∧
    selectedValue (runEvents (runEvents (mount fp hv) es) (vs.map PickerEvent.hostObserved)) =
      selectedValue (runEvents (mount fp hv) es) ∧
    lastWrite es = some ((runEvents (mount fp hv) es).localValue) ∧
    (runEvents (runEvents (mount fp hv) es) (vs.map PickerEvent.hostObserved)).hostValue =
      vs.getLast?.getD ((runEvents (mount fp hv) es).hostValue) := by
  have hlw : ∃ w, lastWrite es = some w := by
    cases hlw0 : lastWrite es with
    | none =>
      have h0 := (runEvents_nonwrite es (mount fp hv) hlw0).1
      rw [h] at h0
      exact absurd h0.symm (by simp [mount])
    | some w => exact ⟨w, rfl⟩
  obtain ⟨w, hw⟩ := hlw
  obtain ⟨hl, _⟩ := runEvents_write es (mount fp hv) w hw
  have hloc := hostRun_localValue vs (runEvents (mount fp hv) es) h
  have hframe := hostRun_frame vs (runEvents (mount fp hv) es)
  have hsel : selectedValue (runEvents (runEvents (mount fp hv) es)
      (vs.map PickerEvent.hostObserved)) = (runEvents (mount fp hv) es).localValue := by
    rw [selectedValue, if_pos (by rw [hframe.1]; exact h)]
    exact hloc
  refine ⟨hsel, hloc, ?_, ?_, hostRun_hostValue vs _⟩
  · rw [hsel, selectedValue, if_pos h]
  · rw [hw, hl]

/-- Claim C1 witness: a concrete trace (mount empty, select `"Target"`)
followed by two host echoes. -/
theorem host_echo_never_overrides_local_witness :
    selectedValue (runEvents (runEvents (mount "icon" none) [PickerEvent.selectIcon "Target"])
        ([none, some "lucide:x"].map PickerEvent.hostObserved)) =
      (runEvents (mount "icon" none) [PickerEvent.selectIcon "Target"]).localValue ∧
    (runEvents (runEvents (mount "icon" none) [PickerEvent.selectIcon "Target"])
        ([none, some "lucide:x"].map PickerEvent.hostObserved)).localValue =
      (runEvents (mount "icon" none) [PickerEvent.selectIcon "Target"]).localValue ∧
    selectedValue (runEvents (runEvents (mount "icon" none) [PickerEvent.selectIcon "Target"])
        ([none, some "lucide:x"].map PickerEvent.hostObserved)) =
      selectedValue (runEvents (mount "icon" none) [PickerEvent.selectIcon "Target"]) ∧
    lastWrite [PickerEvent.selectIcon "Target"] =
      some ((runEvents (mount "icon" none) [PickerEvent.selectIcon "Target"]).localValue) ∧
    (runEvents (runEvents (mount "icon" none) [PickerEvent.selectIcon "Target"])
        ([none, some "lucide:x"].map PickerEvent.hostObserved)).hostValue =
      ([none, some "lucide:x"] : List (Option String)).getLast?.getD
        ((runEvents (mount "icon" none) [PickerEvent.selectIcon "Target"]).hostValue) :=
  host_echo_never_overrides_local "icon" none [PickerEvent.selectIcon "Target"]
    [none, some "lucide:x"] (by decide)

/-- Claim C2: each user action appends exactly one setter request, host
observations never add one, and the scenario-D trace (select
`"AArrowDown"`, then five alternating host echoes) ends with exactly one
recorded call. -/
theorem setter_called_once_per_action (s : PickerState) (n : String)
    (vs : List (Option String)) :
    (step s (.selectIcon n)).setterCalls =
      s.setterCalls ++ [(s.fieldPath, some (storageValue n))] ∧
    (step s .clearIcon).setterCalls = s.setterCalls ++ [(s.fieldPath, none)] ∧
    (runEvents s (vs.map PickerEvent.hostObserved)).setterCalls = s.setterCalls ∧
    (runEvents (mount "icon" none)
      [.setExpanded true, .selectIcon "AArrowDown",
       .hostObserved none, .hostObserved (some "lucide:a-arrow-down"),
       .hostObserved none, .hostObserved (some "lucide:a-arrow-down"),
       .hostObserved none]).setterCalls = [("icon", some "lucide:a-arrow-down")] :=
  ⟨rfl, rfl, (hostRun_frame vs s).2.1, by decide⟩

/-- Claim C3: `selectIcon` sets the interaction flag, stores
`"lucide:" ++ kebabCase id` as the local (and displayed) value, collapses
the picker, and appends exactly one setter request with the field path
and that value, all in the same synchronous step; for `"AArrowDown"` the
stored value is `"lucide:a-arrow-down"`. -/
theorem selectIcon_optimistic_update (s : PickerState) (n : String) :
    (step s (.selectIcon n)).hasInteracted = true ∧
    (step s (.selectIcon n)).localValue = some ("lucide:" ++ kebabCase n) ∧
    (step s (.selectIcon n)).isExpanded = false ∧
    (step s (.selectIcon n)).setterCalls =
      s.setterCalls ++ [(s.fieldPath, some ("lucide:" ++ kebabCase n))] ∧
    selectedValue (step s (.selectIcon n)) = some ("lucide:" ++ kebabCase n) ∧
    storageValue "AArrowDown" = "lucide:a-arrow-down" := by
  refine ⟨rfl, rfl, rfl, rfl, ?_, by decide⟩
  simp [selectedValue, step, storageValue]

/-- Claim C4: settlement of the asynchronous setter call, whether it
resolved or rejected, only appends a diagnostic: the selection state
(interaction flag, local value, host value, expansion, recorded calls)
and the displayed value are exactly those of the optimistic update, both
after `selectIcon` and after `clearIcon`. -/
theorem settlement_never_rolls_back (s : PickerState) (n : String) (ok : Bool) :
    (step s (.setterSettled ok)).hasInteracted = s.hasInteracted ∧
    (step s (.setterSettled ok)).localValue = s.localValue ∧
    (step s (.setterSettled ok)).hostValue = s.hostValue ∧
    (step s (.setterSettled ok)).isExpanded = s.isExpanded ∧
    (step s (.setterSettled ok)).setterCalls = s.setterCalls ∧
    selectedValue (step s (.setterSettled ok)) = selectedValue s ∧
    selectedValue (step (step s (.selectIcon n)) (.setterSettled ok)) =
      selectedValue (step s (.selectIcon n)) ∧
    (step (step s (.selectIcon n)) (.setterSettled ok)).localValue =
      (step s (.selectIcon n)).localValue ∧
    selectedValue (step (step s .clearIcon) (.setterSettled ok)) =
      selectedValue (step s .clearIcon) ∧
    (step (step s .clearIcon) (.setterSettled ok)).localValue =
      (step s .clearIcon).localValue := by
  refine ⟨rfl, rfl, rfl, rfl, rfl, ?_, ?_, rfl, ?_, rfl⟩ <;> simp [selectedValue, step]

/-- Claim C5 counterexample: the catalog membership offered by the claim
(the `ALL_ICONS` exclusion predicate) does not force the round trip; the
all-caps name `"CPU"` passes the predicate yet comes back as `"Cpu"`. -/
theorem roundTrip_fails_on_predicate_alone :
    isCatalogKey "CPU" = true ∧ pascalCase (kebabCase "CPU") ≠ "CPU" :=
  ⟨by decide, by decide⟩

/-- Claim C5 (amended): the conversions are mutually inverse on every
identifier in Pascal normal form: a nonempty concatenation of words,
each an upper-case letter followed by lower-case letters and digits,
where a single-letter word is followed by a word whose second character
is a lower-case letter.  This covers the digit-containing catalog names
(for example `Grid2x2`, `Clock12`). -/
theorem roundTrip_pascalNormal (ws : List (List Char)) (h : pascalNormal ws = true) :
    pascalCase (kebabCase (String.mk ws.flatten)) = String.mk ws.flatten := by
  obtain ⟨hne, hall, hchain⟩ :
      (!ws.isEmpty) = true ∧ ws.all normalWordB = true ∧ chainOk ws = true := by
    simpa [pascalNormal, Bool.and_eq_true, and_assoc] using h
  rw [kebabCase]
  rw [show (String.mk ws.flatten).toList = ws.flatten from rfl]
  rw [splitWords_flatten ws hall hchain]
  rw [pascalCase]
  rw [show (String.mk (joinHyphen (ws.map lowerW))).toList =
      joinHyphen (ws.map lowerW) from rfl]
  rw [splitWords_joinHyphen (ws.map lowerW) (lowered_words_ok ws hall)]
  rw [map_capitalizeW_lowerW ws hall]

/-- Claim C5 witness: the round trip on `"AArrowDown"`, a Pascal-normal
identifier with a single-letter first word. -/
theorem roundTrip_pascalNormal_witness :
    pascalNormal [['A'], ['A', 'r', 'r', 'o', 'w'], ['D', 'o', 'w', 'n']] = true ∧
    pascalCase (kebabCase (String.mk
      ([['A'], ['A', 'r', 'r', 'o', 'w'], ['D', 'o', 'w', 'n']] :
        List (List Char)).flatten)) =
      String.mk ([['A'], ['A', 'r', 'r', 'o', 'w'], ['D', 'o', 'w', 'n']] :
        List (List Char)).flatten :=
  ⟨by decide, roundTrip_pascalNormal _ (by decide)⟩

/-- Claim C9: a mount with no host value displays no selection with the
picker collapsed: the Add affordance is shown, Change/Remove and the
search input are not, and the search input appears once the picker is
expanded by the user. -/
theorem mount_empty_collapsed_view (fp : String) (icons : List String) :
    selectedValue (mount fp none) = none ∧
    (mount fp none).isExpanded = false ∧
    (renderView icons (mount fp none)).showsNoSelection = true ∧
    (renderView icons (mount fp none)).showsAdd = true ∧
    (renderView icons (mount fp none)).showsChange = false ∧
    (renderView icons (mount fp none)).showsRemove = false ∧
    (renderView icons (mount fp none)).showsSearch = false ∧
    (renderView icons (step (mount fp none) (.setExpanded true))).showsSearch = true :=
  ⟨rfl, rfl, rfl, rfl, rfl, rfl, rfl, rfl⟩

theorem categoryCondIff (category : String) (categoryData : List (String × List String)) :
    ((category != "") && !categoryData.isEmpty) = true ↔
      (category ≠ "" ∧ categoryData ≠ []) := by
  simp [bne_iff_ne, List.isEmpty_iff]

/-- Applying the search stage unconditionally agrees with the guard of the
source, because an empty search term filters nothing out. -/
theorem searchStage_eq (X : List String) (search : String) :
    (if search != "" then X.filter (fun name => searchPass search name) else X) =
    X.filter (fun name => searchPass search name) := by
  by_cases hs : search = ""
  · subst hs
    rw [if_neg (by simp)]
    exact (List.filter_eq_self.mpr (fun a _ => by
      simp [searchPass, strIncludes, lowerStr, occursIn_nil])).symm
  · rw [if_pos (by simpa [bne_iff_ne] using hs)]

/-- Claim C6: the filter is an ordered subsequence of the catalog and
coincides with the contract of the spec: category filter first, applied only
when both the tag and the index are non-empty, then the case-insensitive
substring search on display names; an empty index skips category
filtering entirely (fail-open). -/
theorem filter_engine_contract (allIcons : List String) (search category : String)
    (categoryData : List (String × List String)) :
    List.Sublist (filteredIcons allIcons search category categoryData) allIcons ∧
    filteredIcons allIcons search category categoryData =
      filterContract allIcons search category categoryData ∧
    filteredIcons allIcons search category [] = filteredIcons allIcons search "" [] := by
  refine ⟨?_, ?_, ?_⟩
  · simp only [filteredIcons]
    split
    · refine List.Sublist.trans (List.filter_sublist _) ?_
      split
      · exact List.filter_sublist _
      · exact List.Sublist.refl _
    · split
      · exact List.filter_sublist _
      · exact List.Sublist.refl _
  · simp only [filteredIcons, filterContract]
    by_cases hc : category ≠ "" ∧ categoryData ≠ []
    · rw [if_pos ((categoryCondIff category categoryData).mpr hc), if_pos hc,
        searchStage_eq]
    · rw [if_neg (fun hb => hc ((categoryCondIff category categoryData).mp hb)),
        if_neg hc, searchStage_eq]
  · simp [filteredIcons]

/-- Claim C7: every catalog entry passing the active filters is in the
result (no truncation), and a 101-entry catalog with inactive filters
comes back whole. -/
theorem filter_contains_all_matches (allIcons : List String) (search category : String)
    (categoryData : List (String × List String)) (name : String)
    (hmem : name ∈ allIcons)
    (hcat : category ≠ "" → categoryData ≠ [] →
      categoryPass categoryData category name = true)
    (hsearch : search ≠ "" → searchPass search name = true) :
    name ∈ filteredIcons allIcons search category categoryData ∧
    filteredIcons ((List.range 101).map (fun i => "X" ++ toString i)) "" "" [] =
      (List.range 101).map (fun i => "X" ++ toString i) ∧
    ((List.range 101).map (fun i => "X" ++ toString i)).length = 101 := by
  refine ⟨?_, rfl, by simp⟩
  simp only [filteredIcons]
  have h1 : name ∈ (if (category != "") && !categoryData.isEmpty then
      allIcons.filter (fun nm => categoryPass categoryData category nm) else allIcons) := by
    split
    case isTrue hcond =>
      obtain ⟨hc1, hc2⟩ := (categoryCondIff category categoryData).mp hcond
      exact List.mem_filter.mpr ⟨hmem, hcat hc1 hc2⟩
    case isFalse => exact hmem
  split
  case isTrue hs => exact List.mem_filter.mpr ⟨h1, hsearch (by simpa [bne_iff_ne] using hs)⟩
  case isFalse => exact h1

/-- Claim C7 witness: searching `"tar"` in a one-entry catalog keeps the
matching entry. -/
theorem filter_contains_all_matches_witness :
    "Target" ∈ filteredIcons ["Target"] "tar" "" [] :=
  (filter_contains_all_matches ["Target"] "tar" "" [] "Target" (by decide)
    (by decide) (by decide)).1

/-- Claim C8: path resolution is the total walk of the dotted segments:
it is the recursive segment walker, `undefined` and `null` absorb the
rest of the walk, a nested path resolves through objects and array
indices, and a missing index or a null tree resolves to the absent
value. -/
theorem getNestedValue_total_walk (obj : JValue) (path : String) :
    getNestedValue obj path = specWalk (pathSegs path) (some obj) ∧
    (∀ segs : List String, specWalk segs none = none) ∧
    (∀ (k : String) (ks : List String), specWalk (k :: ks) (some JValue.null) = none) ∧
    getNestedValue exampleTree "blocks.0.features.0.licon" =
      some (JValue.str "lucide:Target") ∧
    getNestedValue exampleTree "blocks.1.features.0.licon" = none ∧
    getNestedValue JValue.null "blocks.0.features.0.licon" = none := by
  refine ⟨foldl_specWalk _ _, fun segs => specWalk_none segs, ?_, rfl, rfl, rfl⟩
  intro k ks
  show specWalk ks (jsAccess (some JValue.null) k) = none
  rw [show jsAccess (some JValue.null) k = none from rfl]
  exact specWalk_none ks

/-- Claim C10: when the displayed stored value is non-empty but its
parsed icon name misses the icon map, the widget renders the
no-selection state with only the Add affordance: no value text, no name,
no Change, no Remove. -/
theorem unknown_icon_renders_no_selection (icons : List String) (s : PickerState)
    (v : String) (hv : selectedValue s = some v) (hne : v ≠ "")
    (hmiss : ∀ n, currentIconName (some v) = some n →
      icons.contains (pascalCase n) = false) :
    (renderView icons s).showsNoSelection = true ∧
    (renderView icons s).showsAdd = true ∧
    (renderView icons s).showsChange = false ∧
    (renderView icons s).showsRemove = false ∧
    (renderView icons s).showsCurrentIcon = false ∧
    (renderView icons s).displayedName = none ∧
    (renderView icons s).displayedValue = none := by
  have hhit : (match currentIconName (selectedValue s) with
      | some n => icons.contains (pascalCase n)
      | none => false) = false := by
    rw [hv]
    cases hn : currentIconName (some v) with
    | none => rfl
    | some n => exact hmiss n hn
  have hhit' : (match currentIconName (selectedValue s) with
      | some n => decide (pascalCase n ∈ icons)
      | none => false) = false := by simpa using hhit
  refine ⟨?_, ?_, ?_, ?_, ?_, ?_, ?_⟩ <;> simp [renderView, hhit']

/-- Claim C10 witness: the stored value `"lucide:bogus"` names no icon of
a map containing only `"Target"`. -/
theorem unknown_icon_renders_no_selection_witness :
    (renderView ["Target"] (mount "fp" (some "lucide:bogus"))).showsNoSelection = true ∧
    (renderView ["Target"] (mount "fp" (some "lucide:bogus"))).showsAdd = true ∧
    (renderView ["Target"] (mount "fp" (some "lucide:bogus"))).showsChange = false ∧
    (renderView ["Target"] (mount "fp" (some "lucide:bogus"))).showsRemove = false ∧
    (renderView ["Target"] (mount "fp" (some "lucide:bogus"))).showsCurrentIcon = false ∧
    (renderView ["Target"] (mount "fp" (some "lucide:bogus"))).displayedName = none ∧
    (renderView ["Target"] (mount "fp" (some "lucide:bogus"))).displayedValue = none :=
  unknown_icon_renders_no_selection ["Target"] (mount "fp" (some "lucide:bogus"))
    "lucide:bogus" rfl (by decide)
    (fun n hn => by
      rw [show currentIconName (some "lucide:bogus") = some "bogus" from by decide] at hn
      injection hn with hn'
      rw [← hn']
      decide)

end IconPlugin
